import Mathlib

/-!
Verification of the core word-search engine of `src/8gen.py`:
direction catalog and filtering, collision checking, random placement,
greedy scheduling, and cell filling.  Randomness (the global Python
`random` module) is injected everywhere as explicit oracle parameters,
as the specification itself prescribes for deterministic testing.
-/

set_option maxHeartbeats 1000000

namespace WordSearch

/-- A grid cell: `none` models Python `None` (an unfilled cell), `some c` a letter. -/
abbrev Cell := Option Char

/-- The grid: a list of rows of optional characters (`make_empty`, line 74). -/
abbrev Grid := List (List Cell)

/-- A word, as the list of its characters (Python iterates strings by character). -/
abbrev Word := List Char

/-- Function make_empty (line 74): an n by n grid of `None`. -/
def make_empty (n : Nat) : Grid := List.replicate n (List.replicate n (none : Cell))

/-- Python list-index semantics for a list of length n: a negative index counts
from the end.  Indices outside `[-n, n)` raise IndexError in Python; they are
modelled as out-of-range accesses (reads yield the default, writes are no-ops)
and are never reached on the verified code paths, which bound-check first. -/
def pyIdx (n : Nat) (i : Int) : Nat := if i < 0 then (i + n).toNat else i.toNat

/-- Read `grid[y][x]` with natural-number coordinates. -/
def getCellN (g : Grid) (x y : Nat) : Cell := (g.getD y []).getD x none

/-- Read `grid[y][x]` with Python integer-index semantics. -/
def getCell (g : Grid) (x y : Int) : Cell :=
  let row := g.getD (pyIdx g.length y) []
  row.getD (pyIdx row.length x) none

/-- Write `grid[y][x] = ch` with natural-number coordinates. -/
def setCellN (g : Grid) (x y : Nat) (ch : Char) : Grid :=
  g.set y ((g.getD y []).set x (some ch))

/-- Write `grid[y][x] = ch` (line 84) with Python integer-index semantics. -/
def setCell (g : Grid) (x y : Int) (ch : Char) : Grid :=
  let yi := pyIdx g.length y
  let row := g.getD yi []
  g.set yi (row.set (pyIdx row.length x) (some ch))

/-- A direction triple (dx, dy, compass label), as in `DIRECTIONS` (lines 62-65). -/
abbrev Dir := Int × Int × String

/-- The eight-direction catalog (lines 62-65). -/
def DIRECTIONS : List Dir :=
  [(1, 0, "E"), (0, 1, "S"), (1, 1, "SE"), (-1, 1, "SW"),
   (-1, 0, "W"), (0, -1, "N"), (-1, -1, "NW"), (1, -1, "NE")]

/-- The forward label set (line 70). -/
def forward : List String := ["E", "S", "SE", "SW"]

/-- Function pick_allowed (lines 69-72): keep straight directions unless diagonals are
allowed, then keep only forward labels unless backwards is allowed. -/
def pick_allowed (diagonals backwards : Bool) : List Dir :=
  let allowed := DIRECTIONS.filter (fun d => diagonals || d.1 == 0 || d.2.1 == 0)
  if backwards then allowed else allowed.filter (fun d => forward.contains d.2.2)

/-- The tail of the loop of can_place (lines 75-82) from character index i on. -/
def canPlaceFrom (g : Grid) (n x y dx dy : Int) : Nat → Word → Bool
  | _, [] => true
  | i, ch :: rest =>
    let cx := x + dx * (i : Int)
    let cy := y + dy * (i : Int)
    if cx < 0 || cy < 0 || cx ≥ n || cy ≥ n then false
    else
      match getCell g cx cy with
      | none => canPlaceFrom g n x y dx dy (i+1) rest
      | some c => if c = ch then canPlaceFrom g n x y dx dy (i+1) rest else false

/-- Function can_place (lines 75-82): the word fits at origin (x,y) along (dx,dy)
without leaving the grid or conflicting with an existing different letter. -/
def can_place (g : Grid) (x y dx dy : Int) (w : Word) : Bool :=
  canPlaceFrom g g.length x y dx dy 0 w

/-- The tail of the loop of place_word from character index i on. -/
def placeFrom (x y dx dy : Int) : Nat → Word → Grid → Grid
  | _, [], g => g
  | i, ch :: rest, g =>
    placeFrom x y dx dy (i+1) rest (setCell g (x + dx * (i : Int)) (y + dy * (i : Int)) ch)

/-- Function place_word (lines 83-84): write every character of the word into the grid. -/
def place_word (g : Grid) (x y dx dy : Int) (w : Word) : Grid := placeFrom x y dx dy 0 w g

/-- Models `random.choice` on a list: the draw is supplied as an arbitrary index k.
Python raises on an empty sequence; that case is modelled by the default value
and is never reached under the nonemptiness facts carried by the theorems. -/
def choiceD (l : List α) (k : Nat) (dflt : α) : α := l.getD (k % l.length) dflt

/-- Models `random.randint lo hi` (both bounds inclusive), the draw supplied as an
arbitrary k.  Python raises when hi < lo; in the verified uses lo ≤ hi always
holds (claim C9). -/
def randintD (lo hi : Int) (k : Nat) : Int := lo + (k : Int) % (hi - lo + 1)

/-- Number of empty cells of the whole grid (line 126). -/
def countEmpty (g : Grid) : Nat := (g.map (fun row => row.countP (fun c => c.isNone))).sum

/-- Empty cells along the path of the word: `countNewFrom g x y dx dy i len` counts the
offsets i, i+1, ..., i+len-1 whose cell is still `None`. -/
def countNewFrom (g : Grid) (x y dx dy : Int) : Nat → Nat → Nat
  | _, 0 => 0
  | i, len+1 =>
    (if (getCell g (x + dx * (i : Int)) (y + dy * (i : Int))).isNone then 1 else 0) +
      countNewFrom g x y dx dy (i+1) len

/-- Value new_cells (line 125): the number of empty cells the placement would consume,
the sum over i in range(len(w)) of the still-empty test. -/
def countNew (g : Grid) (x y dx dy : Int) (len : Nat) : Nat := countNewFrom g x y dx dy 0 len

/-- Values max_x and max_y (lines 121-122): n-1 if d<=0 else n-len(w). -/
def max_coord (d : Int) (n len : Nat) : Int := if d ≤ 0 then (n : Int) - 1 else (n : Int) - len

/-- Values min_x and min_y (lines 121-122): 0 if d>=0 else len(w)-1. -/
def min_coord (d : Int) (len : Nat) : Int := if 0 ≤ d then 0 else (len : Int) - 1

/-- The random draws of one trial of the placement loop (lines 120-123):
a direction pick, an x draw and a y draw. -/
structure Trial where
  d : Nat
  rx : Nat
  ry : Nat

/-- An accepted placement: origin, direction and the placed word. -/
structure Placement where
  x : Int
  y : Int
  dx : Int
  dy : Int
  w : Word
deriving DecidableEq

/-- The 1000-trial placement loop for one word (lines 119-128); the random stream of the word is `ow`, j is the current trial index and fuel the remaining trials.
On success the word is written (after `can_place` and the reserved-cells check)
and the placement returned; otherwise the grid comes back unchanged with `none`. -/
def tryWord (allowed : List Dir) (n tlen : Nat) (w : Word) (ow : Nat → Trial) :
    Nat → Nat → Grid → Grid × Option Placement
  | _, 0, g => (g, none)
  | j, fuel+1, g =>
    let t := ow j
    let dir := choiceD allowed t.d (1, 0, "E")
    let dx := dir.1
    let dy := dir.2.1
    let x := randintD (min_coord dx w.length) (max_coord dx n w.length) t.rx
    let y := randintD (min_coord dy w.length) (max_coord dy n w.length) t.ry
    if can_place g x y dx dy w then
      if tlen ≠ 0 ∧ (countEmpty g : Int) - (countNew g x y dx dy w.length : Int) < (tlen : Int) then
        tryWord allowed n tlen w ow (j+1) fuel g
      else
        (place_word g x y dx dy w, some ⟨x, y, dx, dy, w⟩)
    else
      tryWord allowed n tlen w ow (j+1) fuel g

/-- The scheduler loop of `greedy_place` (lines 117-128) over the already shuffled
word pool; k is the pool position, indexing the per-word random stream.
Words longer than the grid are skipped; the accepted placements are returned in
placement order. -/
def greedy_go (allowed : List Dir) (n tlen : Nat) (o : Nat → Nat → Trial) :
    List Word → Nat → Grid → Grid × List Placement
  | [], _, g => (g, [])
  | w :: ws, k, g =>
    if w.length > n then greedy_go allowed n tlen o ws (k+1) g
    else
      match tryWord allowed n tlen w (o k) 0 1000 g with
      | (g1, some p) =>
        let r := greedy_go allowed n tlen o ws (k+1) g1
        (r.1, p :: r.2)
      | (g1, none) => greedy_go allowed n tlen o ws (k+1) g1

/-- Stable insertion into a list sorted by descending word length. -/
def insertLenDesc (w : Word) : List Word → List Word
  | [] => [w]
  | v :: vs => if w.length < v.length then v :: insertLenDesc w vs else w :: v :: vs

/-- Line 115, words_pool.sort(key=len, reverse=True): the Python list sort is a
stable sort, and a stable sort is extensionally unique, so the stable insertion
sort below computes exactly its result (longest words first, ties in input order). -/
def sortLenDesc : List Word → List Word
  | [] => []
  | w :: ws => insertLenDesc w (sortLenDesc ws)

/-- Function greedy_place (lines 113-129) with the accepted coordinates exposed.
Randomness is injected: `shuffle` stands for `random.shuffle` (line 115) and
`o` for the per-word trial draws. -/
def greedy_place_aux (words : List Word) (n : Nat) (diagonals backwards : Bool)
    (tlen : Nat) (shuffle : List Word → List Word) (o : Nat → Nat → Trial) :
    Grid × List Placement :=
  greedy_go (pick_allowed diagonals backwards) n tlen o
    (shuffle (sortLenDesc words)) 0 (make_empty n)

/-- Function greedy_place (lines 113-129): returns the grid and the list of placed words.
`alphabet_key` is accepted and unused, exactly as in the source. -/
def greedy_place (words : List Word) (n : Nat) (diagonals backwards : Bool)
    (alphabet_key : String) (tlen : Nat) (shuffle : List Word → List Word)
    (o : Nat → Nat → Trial) : Grid × List Word :=
  ((greedy_place_aux words n diagonals backwards tlen shuffle o).1,
   (greedy_place_aux words n diagonals backwards tlen shuffle o).2.map Placement.w)

/-- One row of the fill_random loop (lines 85-89); x is the current column and
fx holds the random draws of the row. -/
def fillRow (alphabet : List Char) (fx : Nat → Nat) : Nat → List Cell → List Cell
  | _, [] => []
  | x, none :: rest => some (choiceD alphabet (fx x) 'A') :: fillRow alphabet fx (x+1) rest
  | x, some ch :: rest => some ch :: fillRow alphabet fx (x+1) rest

/-- The row loop of `fill_random` (lines 85-89); y is the current row index. -/
def fillRows (alphabet : List Char) (f : Nat → Nat → Nat) : Nat → Grid → Grid
  | _, [] => []
  | y, row :: rest => fillRow alphabet (f y) 0 row :: fillRows alphabet f (y+1) rest

/-- Function fill_random (lines 85-89): every empty cell receives a letter drawn from the
alphabet; the draw for cell (x, y) is supplied by the injected stream as `f y x`. -/
def fill_random (g : Grid) (alphabet : List Char) (f : Nat → Nat → Nat) : Grid :=
  fillRows alphabet f 0 g

/-- Insertion into an ascending duplicate-free character list. -/
def insertChar (c : Char) : List Char → List Char
  | [] => [c]
  | d :: ds => if d < c then d :: insertChar c ds else if d = c then d :: ds else c :: d :: ds

/-- Expression sorted(set(...)) (line 109): the distinct characters in increasing order,
computed by repeated sorted-set insertion (extensionally the same list). -/
def sortedSet (l : List Char) : List Char := l.foldr insertChar []

/-- Value letters_random (line 109): strip diacritics, uppercase, keep only A-Z, then
sorted(set(...)).  Note remove_diacritics (lines 66-67) delegates to the Python
unicodedata NFD tables, an external library, so the decomposition step is
injected as `strip`; `Char.toUpper` is ASCII-only, which agrees with `str.upper`
on the stripped (ASCII) alphabets this code feeds it. -/
def letters_random_of (strip : List Char → List Char) (alphabet : List Char) : List Char :=
  sortedSet (((strip alphabet).map Char.toUpper).filter
    (fun c => decide ('A' ≤ c) && decide (c ≤ 'Z')))

/-- The empty cells of one row as (y, x) pairs, left to right; x is the current column. -/
def rowEmpties (y : Nat) : Nat → List Cell → List (Nat × Nat)
  | _, [] => []
  | x, none :: rest => (y, x) :: rowEmpties y (x+1) rest
  | x, some _ :: rest => rowEmpties y (x+1) rest

/-- The row loop of the `empties` comprehension; y is the current row index. -/
def emptiesFrom : Nat → Grid → List (Nat × Nat)
  | _, [] => []
  | y, row :: rest => rowEmpties y 0 row ++ emptiesFrom (y+1) rest

/-- Value empties (line 110): the (y, x) coordinates of the empty cells in row-major
scan order (top row to bottom, left to right within a row). -/
def empties (g : Grid) : List (Nat × Nat) := emptiesFrom 0 g

/-- The character written into the i-th empty cell (line 112): the phrase letter
while the phrase lasts, afterwards a random letter. -/
def tajVal (tajenka letters_random : List Char) (f : Nat → Nat) (i : Nat) : Char :=
  if i < tajenka.length then tajenka.getD i 'A' else choiceD letters_random (f i) 'A'

/-- The write loop of `fill_with_tajenka` (lines 111-112) over the empty-cell
list; i is the current enumeration index. -/
def fillEmpties (tajenka letters_random : List Char) (f : Nat → Nat) :
    Nat → List (Nat × Nat) → Grid → Grid
  | _, [], g => g
  | i, (y, x) :: rest, g =>
    fillEmpties tajenka letters_random f (i+1) rest
      (setCellN g x y (tajVal tajenka letters_random f i))

/-- Function fill_with_tajenka (lines 108-112): embed the phrase into the empty cells in
row-major order, pad the remaining empty cells with random restricted-alphabet
letters.  `f` supplies the random draws, indexed by empty-cell position. -/
def fill_with_tajenka (g : Grid) (alphabet : List Char) (tajenka : List Char)
    (strip : List Char → List Char) (f : Nat → Nat) : Grid :=
  fillEmpties tajenka (letters_random_of strip alphabet) f 0 (empties g) g

/-- The grid is an n by n matrix. -/
def Square (g : Grid) (n : Nat) : Prop := g.length = n ∧ ∀ row ∈ g, row.length = n

/-- Read len cells along a direction from an origin. -/
def readWord (g : Grid) (x y dx dy : Int) (len : Nat) : List Cell :=
  (List.range len).map (fun i : Nat => getCell g (x + dx * (i : Int)) (y + dy * (i : Int)))

/-- The word of the placement is visible in the grid along its direction. -/
def placedOK (g : Grid) (p : Placement) : Prop :=
  ∀ j (h : j < p.w.length),
    0 ≤ p.x + p.dx * (j : Int) ∧ 0 ≤ p.y + p.dy * (j : Int) ∧
    getCell g (p.x + p.dx * (j : Int)) (p.y + p.dy * (j : Int)) = some (p.w.get ⟨j, h⟩)

/-- Row-major (lexicographic) order on (y, x) coordinates. -/
def rowMajorLt (p q : Nat × Nat) : Prop := p.1 < q.1 ∨ (p.1 = q.1 ∧ p.2 < q.2)

/-! ### Basic list and cell access lemmas -/

theorem getD_get (l : List α) (i : Nat) (d : α) (h : i < l.length) : l.getD i d = l[i] := by
  rw [List.getD_eq_getElem?_getD, List.getElem?_eq_getElem h]; rfl

theorem getD_mem (l : List α) (i : Nat) (d : α) (h : i < l.length) : l.getD i d ∈ l := by
  rw [getD_get l i d h]; exact List.getElem_mem h

theorem getD_set_self (l : List α) (i : Nat) (a d : α) (h : i < l.length) :
    (l.set i a).getD i d = a := by
  rw [List.getD_eq_getElem?_getD, List.getElem?_set_self h]; rfl

theorem getD_set_ne (l : List α) (i j : Nat) (a d : α) (h : i ≠ j) :
    (l.set i a).getD j d = l.getD j d := by
  rw [List.getD_eq_getElem?_getD, List.getElem?_set_ne h, ← List.getD_eq_getElem?_getD]

theorem getCell_eq_getCellN (g : Grid) (x y : Int) (hx : 0 ≤ x) (hy : 0 ≤ y) :
    getCell g x y = getCellN g x.toNat y.toNat := by
  simp [getCell, getCellN, pyIdx, Int.not_lt.mpr hx, Int.not_lt.mpr hy]

theorem setCell_eq_setCellN (g : Grid) (x y : Int) (ch : Char) (hx : 0 ≤ x) (hy : 0 ≤ y) :
    setCell g x y ch = setCellN g x.toNat y.toNat ch := by
  simp [setCell, setCellN, pyIdx, Int.not_lt.mpr hx, Int.not_lt.mpr hy]

theorem length_setCellN (g : Grid) (x y : Nat) (ch : Char) :
    (setCellN g x y ch).length = g.length := by
  simp [setCellN]

theorem rowlen_setCellN (g : Grid) (x y : Nat) (ch : Char) (b : Nat) :
    ((setCellN g x y ch).getD b []).length = (g.getD b []).length := by
  unfold setCellN
  rcases Nat.lt_or_ge y g.length with hy | hy
  · by_cases hb : b = y
    · subst hb
      rw [getD_set_self _ _ _ _ hy, List.length_set]
    · rw [getD_set_ne _ _ _ _ _ (fun h => hb h.symm)]
  · rw [List.set_eq_of_length_le hy]

theorem getCellN_setCellN_self (g : Grid) (x y : Nat) (ch : Char)
    (hy : y < g.length) (hx : x < (g.getD y []).length) :
    getCellN (setCellN g x y ch) x y = some ch := by
  unfold getCellN setCellN
  rw [getD_set_self _ _ _ _ hy, getD_set_self _ _ _ _ hx]

theorem getCellN_setCellN_ne (g : Grid) (x y a b : Nat) (ch : Char)
    (hne : ¬(a = x ∧ b = y)) :
    getCellN (setCellN g x y ch) a b = getCellN g a b := by
  unfold getCellN setCellN
  by_cases hb : b = y
  · subst hb
    have hax : a ≠ x := fun h => hne ⟨h, rfl⟩
    rcases Nat.lt_or_ge b g.length with hby | hby
    · rw [getD_set_self _ _ _ _ hby, getD_set_ne _ _ _ _ _ (fun h => hax h.symm)]
    · rw [List.set_eq_of_length_le hby]
  · rw [getD_set_ne _ _ _ _ _ (fun h => hb h.symm)]

theorem Square_setCellN (g : Grid) (x y : Nat) (ch : Char) (n : Nat)
    (hsq : Square g n) : Square (setCellN g x y ch) n := by
  obtain ⟨hlen, hrow⟩ := hsq
  refine ⟨by simp [setCellN, hlen], ?_⟩
  intro row hmem
  unfold setCellN at hmem
  rcases Nat.lt_or_ge y g.length with hy | hy
  · rcases List.mem_or_eq_of_mem_set hmem with h | h
    · exact hrow row h
    · subst h
      rw [List.length_set]
      exact hrow _ (getD_mem g y [] hy)
  · rw [List.set_eq_of_length_le hy] at hmem
    exact hrow row hmem

theorem Square_make_empty (n : Nat) : Square (make_empty n) n := by
  constructor
  · simp [make_empty]
  · intro row hmem
    simp [make_empty] at hmem
    simp [hmem.2]

theorem countEmpty_make_empty (n : Nat) : countEmpty (make_empty n) = n * n := by
  have hrow : (List.replicate n (none : Cell)).countP (fun c => c.isNone) = n := by
    induction n with
    | zero => rfl
    | succ m ih => simp [List.replicate_succ, List.countP_cons, ih]
  simp [countEmpty, make_empty, List.map_replicate, hrow, List.sum_replicate, smul_eq_mul]

theorem countP_isNone_set (row : List Cell) (x : Nat) (ch : Char) (hx : x < row.length) :
    row.countP (fun c => c.isNone) =
      (row.set x (some ch)).countP (fun c => c.isNone) +
        (if row.getD x none = none then 1 else 0) := by
  rw [List.countP_set _ _ _ _ hx, getD_get _ _ _ hx]
  rcases h : row[x] with _ | c
  · have hone : 0 < row.countP (fun c => c.isNone) := by
      rw [List.countP_pos_iff]
      exact ⟨row[x], List.getElem_mem hx, by rw [h]; rfl⟩
    simp only [h, Option.isNone_none, Option.isNone_some]
    simp
    omega
  · simp [h]

theorem countEmpty_setCellN (g : Grid) (x y : Nat) (ch : Char)
    (hy : y < g.length) (hx : x < (g.getD y []).length) :
    countEmpty g = countEmpty (setCellN g x y ch) + (if getCellN g x y = none then 1 else 0) := by
  unfold countEmpty setCellN getCellN
  induction g generalizing y with
  | nil => simp at hy
  | cons row rest ih =>
    cases y with
    | zero =>
      simp only [List.getD_cons_zero] at hx ⊢
      simp only [List.set_cons_zero, List.map_cons, List.sum_cons]
      have := countP_isNone_set row x ch hx
      omega
    | succ m =>
      simp only [List.getD_cons_succ] at hx ⊢
      simp only [List.set_cons_succ, List.map_cons, List.sum_cons]
      have hm : m < rest.length := by simpa using hy
      have := ih m hm hx
      omega

/-! ### Characterization of the collision checker -/

/-- The requirement `can_place` checks at one path offset m: the cell lies inside
the grid on both axes and is empty or already holds the required character. -/
def okAt (g : Grid) (n x y dx dy : Int) (m : Nat) (ch : Char) : Prop :=
  0 ≤ x + dx * (m : Int) ∧ x + dx * (m : Int) < n ∧
  0 ≤ y + dy * (m : Int) ∧ y + dy * (m : Int) < n ∧
  (getCell g (x + dx * (m : Int)) (y + dy * (m : Int)) = none ∨
   getCell g (x + dx * (m : Int)) (y + dy * (m : Int)) = some ch)

theorem canPlaceFrom_cons (g : Grid) (n x y dx dy : Int) (i : Nat) (ch : Char) (rest : Word) :
    canPlaceFrom g n x y dx dy i (ch :: rest) = true ↔
      okAt g n x y dx dy i ch ∧ canPlaceFrom g n x y dx dy (i+1) rest = true := by
  rw [canPlaceFrom]
  simp only [okAt]
  by_cases hb : x + dx * (i : Int) < 0 ∨ y + dy * (i : Int) < 0 ∨
      x + dx * (i : Int) ≥ n ∨ y + dy * (i : Int) ≥ n
  · have hcond : (decide (x + dx * (i : Int) < 0) || decide (y + dy * (i : Int) < 0) ||
        decide (x + dx * (i : Int) ≥ n) || decide (y + dy * (i : Int) ≥ n)) = true := by
      simp only [Bool.or_eq_true, decide_eq_true_eq]
      tauto
    rw [if_pos hcond]
    constructor
    · intro h; exact absurd h (by simp)
    · rintro ⟨⟨h1, h2, h3, h4, _⟩, _⟩
      omega
  · push_neg at hb
    obtain ⟨h1, h2, h3, h4⟩ := hb
    have hcond : (decide (x + dx * (i : Int) < 0) || decide (y + dy * (i : Int) < 0) ||
        decide (x + dx * (i : Int) ≥ n) || decide (y + dy * (i : Int) ≥ n)) = false := by
      simp only [Bool.or_eq_false_iff, decide_eq_false_iff_not]
      refine ⟨⟨⟨by omega, by omega⟩, by omega⟩, by omega⟩
    rw [if_neg (by simp [hcond])]
    cases hcell : getCell g (x + dx * (i : Int)) (y + dy * (i : Int)) with
    | none =>
      constructor
      · intro h
        refine ⟨⟨by omega, by omega, by omega, by omega, ?_⟩, h⟩
        left; rfl
      · rintro ⟨_, h⟩; exact h
    | some c =>
      by_cases hc : c = ch
      · subst hc
        constructor
        · intro h
          refine ⟨⟨by omega, by omega, by omega, by omega, ?_⟩, ?_⟩
          · right; rfl
          · simpa using h
        · rintro ⟨_, h⟩
          simpa using h
      · constructor
        · intro h
          simp [hc] at h
        · rintro ⟨⟨_, _, _, _, hok⟩, _⟩
          rcases hok with hok | hok
          · simp at hok
          · rw [Option.some_inj] at hok; exact absurd hok hc

theorem canPlaceFrom_iff (g : Grid) (n x y dx dy : Int) :
    ∀ (w : Word) (i : Nat),
      canPlaceFrom g n x y dx dy i w = true ↔
        ∀ j (h : j < w.length), okAt g n x y dx dy (i + j) (w.get ⟨j, h⟩)
  | [], i => by simp [canPlaceFrom]
  | ch :: rest, i => by
    rw [canPlaceFrom_cons, canPlaceFrom_iff g n x y dx dy rest (i+1)]
    constructor
    · rintro ⟨h0, hrest⟩ j hj
      cases j with
      | zero => simpa using h0
      | succ m =>
        have hm : m < rest.length := by simpa using hj
        have := hrest m hm
        have harith : i + 1 + m = i + (m + 1) := by omega
        rw [harith] at this
        exact this
    · intro hall
      constructor
      · simpa using hall 0 (by simp)
      · intro m hm
        have := hall (m+1) (by simpa using hm)
        have harith : i + (m + 1) = i + 1 + m := by omega
        rw [harith] at this
        exact this

/-- The characterization of `can_place` specialized to index 0. -/
theorem can_place_iff (g : Grid) (x y dx dy : Int) (w : Word) :
    can_place g x y dx dy w = true ↔
      ∀ j (h : j < w.length), okAt g (g.length : Int) x y dx dy j (w.get ⟨j, h⟩) := by
  rw [can_place, canPlaceFrom_iff]
  constructor
  · intro h j hj
    have := h j hj
    simpa using this
  · intro h j hj
    have := h j hj
    simpa using this

/-! ### Direction catalog and randomness helpers -/

theorem dir_nonzero : ∀ d ∈ DIRECTIONS, ¬(d.1 = 0 ∧ d.2.1 = 0) := by decide

theorem pick_allowed_sub_catalog :
    ∀ (a b : Bool), ∀ d ∈ pick_allowed a b, d ∈ DIRECTIONS := by decide

theorem choiceD_mem_or (l : List α) (k : Nat) (d : α) :
    choiceD l k d ∈ l ∨ choiceD l k d = d := by
  unfold choiceD
  rcases Nat.lt_or_ge (k % l.length) l.length with h | h
  · exact Or.inl (getD_mem l _ d h)
  · exact Or.inr (List.getD_eq_default l d h)

theorem choiceD_mem (l : List α) (k : Nat) (d : α) (hl : l ≠ []) : choiceD l k d ∈ l := by
  unfold choiceD
  have hlen : 0 < l.length := List.length_pos.mpr hl
  exact getD_mem l _ d (Nat.mod_lt k hlen)

theorem randintD_mem (lo hi : Int) (k : Nat) (h : lo ≤ hi) :
    lo ≤ randintD lo hi k ∧ randintD lo hi k ≤ hi := by
  unfold randintD
  have h1 : 0 ≤ (k : Int) % (hi - lo + 1) := Int.emod_nonneg _ (by omega)
  have h2 : (k : Int) % (hi - lo + 1) < hi - lo + 1 := Int.emod_lt_of_pos _ (by omega)
  omega

/-! ### Writing a word after a successful collision check -/

theorem path_cells_ne (dx dy : Int) (hnz : ¬(dx = 0 ∧ dy = 0)) (x y : Int) (i j : Nat)
    (hij : i ≠ j) (hxi : 0 ≤ x + dx * (i : Int)) (hyi : 0 ≤ y + dy * (i : Int))
    (hxj : 0 ≤ x + dx * (j : Int)) (hyj : 0 ≤ y + dy * (j : Int)) :
    ¬((x + dx * (j : Int)).toNat = (x + dx * (i : Int)).toNat ∧
      (y + dy * (j : Int)).toNat = (y + dy * (i : Int)).toNat) := by
  rintro ⟨hgx, hgy⟩
  have h1 : dx * (j : Int) = dx * (i : Int) := by omega
  have h2 : dy * (j : Int) = dy * (i : Int) := by omega
  have hdx : dx = 0 := by
    rcases mul_eq_zero.mp (show dx * ((j : Int) - (i : Int)) = 0 by rw [mul_sub]; omega)
      with h | h
    · exact h
    · exact absurd (by omega : i = j) hij
  have hdy : dy = 0 := by
    rcases mul_eq_zero.mp (show dy * ((j : Int) - (i : Int)) = 0 by rw [mul_sub]; omega)
      with h | h
    · exact h
    · exact absurd (by omega : i = j) hij
  exact hnz ⟨hdx, hdy⟩

theorem countNewFrom_congr (g1 g : Grid) (x y dx dy : Int) :
    ∀ (len i : Nat),
      (∀ m, i ≤ m → m < i + len →
        getCell g1 (x + dx * (m : Int)) (y + dy * (m : Int)) =
          getCell g (x + dx * (m : Int)) (y + dy * (m : Int))) →
      countNewFrom g1 x y dx dy i len = countNewFrom g x y dx dy i len := by
  intro len
  induction len with
  | zero => intro i _; rfl
  | succ m ih =>
    intro i hcells
    rw [countNewFrom, countNewFrom, hcells i (Nat.le_refl i) (by omega),
      ih (i+1) (fun m2 h1 h2 => hcells m2 (by omega) (by omega))]

theorem placeFrom_spec (x y dx dy : Int) (hnz : ¬(dx = 0 ∧ dy = 0)) (nn : Nat) :
    ∀ (w : Word) (i : Nat) (g : Grid), Square g nn →
      (∀ j (h : j < w.length), okAt g (nn : Int) x y dx dy (i + j) (w.get ⟨j, h⟩)) →
      Square (placeFrom x y dx dy i w g) nn ∧
      (∀ a b c, getCellN g a b = some c → getCellN (placeFrom x y dx dy i w g) a b = some c) ∧
      (∀ j (h : j < w.length),
        getCell (placeFrom x y dx dy i w g) (x + dx * ((i + j : Nat) : Int))
          (y + dy * ((i + j : Nat) : Int)) = some (w.get ⟨j, h⟩)) ∧
      countEmpty g = countEmpty (placeFrom x y dx dy i w g) + countNewFrom g x y dx dy i w.length
  | [], i, g => by
    intro hsq _
    refine ⟨hsq, fun a b c h => h, fun j h => absurd h (by simp), ?_⟩
    exact (Nat.add_zero _).symm
  | ch :: rest, i, g => by
    intro hsq hok
    have hok0 := hok 0 (by simp)
    rw [Nat.add_zero] at hok0
    obtain ⟨hx0, hx1, hy0, hy1, hcell0⟩ := hok0
    have hcell : getCell g (x + dx * (i : Int)) (y + dy * (i : Int)) = none ∨
        getCell g (x + dx * (i : Int)) (y + dy * (i : Int)) = some ch := hcell0
    have hglen : g.length = nn := hsq.1
    have hylt : (y + dy * (i : Int)).toNat < g.length := by omega
    have hrowlen : (g.getD (y + dy * (i : Int)).toNat []).length = nn :=
      hsq.2 _ (getD_mem g _ [] hylt)
    have hxlt : (x + dx * (i : Int)).toNat < (g.getD (y + dy * (i : Int)).toNat []).length := by
      omega
    have hset : setCell g (x + dx * (i : Int)) (y + dy * (i : Int)) ch =
        setCellN g (x + dx * (i : Int)).toNat (y + dy * (i : Int)).toNat ch :=
      setCell_eq_setCellN g _ _ ch hx0 hy0
    have hstep : placeFrom x y dx dy i (ch :: rest) g =
        placeFrom x y dx dy (i+1) rest
          (setCellN g (x + dx * (i : Int)).toNat (y + dy * (i : Int)).toNat ch) := by
      rw [placeFrom, hset]
    have hsq1 : Square (setCellN g (x + dx * (i : Int)).toNat (y + dy * (i : Int)).toNat ch) nn :=
      Square_setCellN g _ _ ch nn hsq
    -- the cells of the remaining path are untouched by the head write
    have huntouched : ∀ m : Nat, m ≠ i → 0 ≤ x + dx * (m : Int) → 0 ≤ y + dy * (m : Int) →
        getCell (setCellN g (x + dx * (i : Int)).toNat (y + dy * (i : Int)).toNat ch)
            (x + dx * (m : Int)) (y + dy * (m : Int)) =
          getCell g (x + dx * (m : Int)) (y + dy * (m : Int)) := by
      intro m hm hxm hym
      rw [getCell_eq_getCellN _ _ _ hxm hym, getCell_eq_getCellN _ _ _ hxm hym]
      exact getCellN_setCellN_ne _ _ _ _ _ _
        (path_cells_ne dx dy hnz x y i m (fun h => hm h.symm) hx0 hy0 hxm hym)
    have hok1 : ∀ j (h : j < rest.length),
        okAt (setCellN g (x + dx * (i : Int)).toNat (y + dy * (i : Int)).toNat ch)
          (nn : Int) x y dx dy ((i+1) + j) (rest.get ⟨j, h⟩) := by
      intro j hj
      have := hok (j+1) (by simpa using hj)
      rw [show i + (j+1) = (i+1) + j by omega] at this
      simp only [List.get_cons_succ] at this
      obtain ⟨ha, hb, hc, hd, he⟩ := this
      refine ⟨ha, hb, hc, hd, ?_⟩
      rw [huntouched ((i+1)+j) (by omega) ha hc]
      exact he
    obtain ⟨S1, P1, R1, E1⟩ := placeFrom_spec x y dx dy hnz nn rest (i+1) _ hsq1 hok1
    have hpres1 : ∀ a b c, getCellN g a b = some c →
        getCellN (setCellN g (x + dx * (i : Int)).toNat (y + dy * (i : Int)).toNat ch) a b
          = some c := by
      intro a b c hab
      by_cases hcase : a = (x + dx * (i : Int)).toNat ∧ b = (y + dy * (i : Int)).toNat
      · obtain ⟨ha, hb⟩ := hcase
        subst ha; subst hb
        rw [getCellN_setCellN_self g _ _ ch hylt hxlt]
        rcases hcell with hc1 | hc1
        · rw [getCell_eq_getCellN _ _ _ hx0 hy0] at hc1
          rw [hab] at hc1
          exact absurd hc1 (by simp)
        · rw [getCell_eq_getCellN _ _ _ hx0 hy0] at hc1
          rw [hab] at hc1
          rw [← hc1]
      · rw [getCellN_setCellN_ne _ _ _ _ _ _ hcase]
        exact hab
    refine ⟨by rw [hstep]; exact S1, ?_, ?_, ?_⟩
    · intro a b c hab
      rw [hstep]
      exact P1 a b c (hpres1 a b c hab)
    · intro j hj
      cases j with
      | zero =>
        rw [Nat.add_zero, hstep]
        have hcellset : getCellN
            (setCellN g (x + dx * (i : Int)).toNat (y + dy * (i : Int)).toNat ch)
            (x + dx * (i : Int)).toNat (y + dy * (i : Int)).toNat = some ch :=
          getCellN_setCellN_self g _ _ ch hylt hxlt
        have := P1 _ _ ch hcellset
        rw [getCell_eq_getCellN _ _ _ hx0 hy0]
        exact this
      | succ m =>
        rw [hstep, show i + (m+1) = (i+1) + m by omega]
        exact R1 m (by simpa using hj)
    · rw [hstep]
      have hcnt : countEmpty g =
          countEmpty (setCellN g (x + dx * (i : Int)).toNat (y + dy * (i : Int)).toNat ch) +
            (if getCellN g (x + dx * (i : Int)).toNat (y + dy * (i : Int)).toNat = none
              then 1 else 0) :=
        countEmpty_setCellN g _ _ ch hylt hxlt
      have hcn : countNewFrom
          (setCellN g (x + dx * (i : Int)).toNat (y + dy * (i : Int)).toNat ch)
            x y dx dy (i+1) rest.length =
          countNewFrom g x y dx dy (i+1) rest.length := by
        apply countNewFrom_congr
        intro m h1 h2
        have hj : m - (i+1) < rest.length := by omega
        have := hok ((m - (i+1)) + 1) (by simpa using hj)
        rw [show i + ((m - (i+1)) + 1) = m by omega] at this
        exact huntouched m (by omega) this.1 this.2.2.1
      have hhead : countNewFrom g x y dx dy i (rest.length + 1) =
          (if (getCell g (x + dx * (i : Int)) (y + dy * (i : Int))).isNone then 1 else 0) +
            countNewFrom g x y dx dy (i+1) rest.length := rfl
      have hbridge : (getCell g (x + dx * (i : Int)) (y + dy * (i : Int))).isNone =
          (getCellN g (x + dx * (i : Int)).toNat (y + dy * (i : Int)).toNat).isNone := by
        rw [getCell_eq_getCellN _ _ _ hx0 hy0]
      simp only [List.length_cons]
      rw [hhead, hbridge]
      rcases hval : getCellN g (x + dx * (i : Int)).toNat (y + dy * (i : Int)).toNat with _ | c
      · simp only [hval, Option.isNone_none, if_pos rfl] at hcnt ⊢
        omega
      · simp only [hval, Option.isNone_some] at hcnt ⊢
        simp only [Bool.false_eq_true, if_false]
        have : ¬ (some c = (none : Cell)) := by simp
        rw [if_neg this] at hcnt
        omega

/-! ### The trial loop and the scheduler -/

theorem placedOK_mono (g g2 : Grid) (p : Placement)
    (hpres : ∀ a b c, getCellN g a b = some c → getCellN g2 a b = some c)
    (h : placedOK g p) : placedOK g2 p := by
  intro j hj
  obtain ⟨h1, h2, h3⟩ := h j hj
  refine ⟨h1, h2, ?_⟩
  rw [getCell_eq_getCellN _ _ _ h1 h2] at h3 ⊢
  exact hpres _ _ _ h3

/-- Every run of the trial loop either leaves the grid unchanged and reports
failure, or writes the word at an origin and direction that passed `can_place`
(and, when reserved cells are requested, the reserved-cells guard). -/
theorem tryWord_spec (allowed : List Dir) (n tlen : Nat) (w : Word) (ow : Nat → Trial)
    (hA : ∀ d ∈ allowed, d ∈ DIRECTIONS) :
    ∀ (fuel j : Nat) (g : Grid),
      tryWord allowed n tlen w ow j fuel g = (g, none) ∨
      ∃ x y dx dy, ¬(dx = 0 ∧ dy = 0) ∧ can_place g x y dx dy w = true ∧
        (tlen ≠ 0 →
          (tlen : Int) ≤ (countEmpty g : Int) - (countNew g x y dx dy w.length : Int)) ∧
        tryWord allowed n tlen w ow j fuel g =
          (place_word g x y dx dy w, some ⟨x, y, dx, dy, w⟩)
  | 0, j, g => Or.inl rfl
  | fuel+1, j, g => by
    have hunfold : tryWord allowed n tlen w ow j (fuel+1) g =
        (if can_place g
            (randintD (min_coord (choiceD allowed (ow j).d (1, 0, "E")).1 w.length)
              (max_coord (choiceD allowed (ow j).d (1, 0, "E")).1 n w.length) (ow j).rx)
            (randintD (min_coord (choiceD allowed (ow j).d (1, 0, "E")).2.1 w.length)
              (max_coord (choiceD allowed (ow j).d (1, 0, "E")).2.1 n w.length) (ow j).ry)
            (choiceD allowed (ow j).d (1, 0, "E")).1
            (choiceD allowed (ow j).d (1, 0, "E")).2.1 w then
          (if tlen ≠ 0 ∧ (countEmpty g : Int) -
              (countNew g
                (randintD (min_coord (choiceD allowed (ow j).d (1, 0, "E")).1 w.length)
                  (max_coord (choiceD allowed (ow j).d (1, 0, "E")).1 n w.length) (ow j).rx)
                (randintD (min_coord (choiceD allowed (ow j).d (1, 0, "E")).2.1 w.length)
                  (max_coord (choiceD allowed (ow j).d (1, 0, "E")).2.1 n w.length) (ow j).ry)
                (choiceD allowed (ow j).d (1, 0, "E")).1
                (choiceD allowed (ow j).d (1, 0, "E")).2.1 w.length : Int) < (tlen : Int) then
            tryWord allowed n tlen w ow (j+1) fuel g
          else
            (place_word g
              (randintD (min_coord (choiceD allowed (ow j).d (1, 0, "E")).1 w.length)
                (max_coord (choiceD allowed (ow j).d (1, 0, "E")).1 n w.length) (ow j).rx)
              (randintD (min_coord (choiceD allowed (ow j).d (1, 0, "E")).2.1 w.length)
                (max_coord (choiceD allowed (ow j).d (1, 0, "E")).2.1 n w.length) (ow j).ry)
              (choiceD allowed (ow j).d (1, 0, "E")).1
              (choiceD allowed (ow j).d (1, 0, "E")).2.1 w,
             some ⟨randintD (min_coord (choiceD allowed (ow j).d (1, 0, "E")).1 w.length)
                (max_coord (choiceD allowed (ow j).d (1, 0, "E")).1 n w.length) (ow j).rx,
              randintD (min_coord (choiceD allowed (ow j).d (1, 0, "E")).2.1 w.length)
                (max_coord (choiceD allowed (ow j).d (1, 0, "E")).2.1 n w.length) (ow j).ry,
              (choiceD allowed (ow j).d (1, 0, "E")).1,
              (choiceD allowed (ow j).d (1, 0, "E")).2.1, w⟩))
        else tryWord allowed n tlen w ow (j+1) fuel g) := rfl
    rw [hunfold]
    have hnz : ¬((choiceD allowed (ow j).d (1, 0, "E")).1 = 0 ∧
        (choiceD allowed (ow j).d (1, 0, "E")).2.1 = 0) := by
      rcases choiceD_mem_or allowed (ow j).d (1, 0, "E") with h | h
      · exact dir_nonzero _ (hA _ h)
      · rw [h]; simp
    split_ifs with h1 h2
    · exact tryWord_spec allowed n tlen w ow hA fuel (j+1) g
    · right
      refine ⟨_, _, _, _, hnz, h1, ?_, rfl⟩
      intro htlen
      rcases not_and_or.mp h2 with h | h
      · exact absurd htlen (by simpa using h)
      · omega
    · exact tryWord_spec allowed n tlen w ow hA fuel (j+1) g

/-- The scheduler, started on any grid, preserves squareness, never erases a
filled cell, maintains the reserved-empty-cells lower bound, and every
accumulated placement is visible in the final grid, comes from the pool, and
fits the grid. -/
theorem greedy_go_spec (allowed : List Dir) (n tlen : Nat) (o : Nat → Nat → Trial)
    (hA : ∀ d ∈ allowed, d ∈ DIRECTIONS) :
    ∀ (ws : List Word) (k : Nat) (g : Grid), Square g n →
      Square (greedy_go allowed n tlen o ws k g).1 n ∧
      (∀ a b c, getCellN g a b = some c →
        getCellN (greedy_go allowed n tlen o ws k g).1 a b = some c) ∧
      (tlen ≤ countEmpty g → tlen ≤ countEmpty (greedy_go allowed n tlen o ws k g).1) ∧
      (∀ p ∈ (greedy_go allowed n tlen o ws k g).2,
        placedOK (greedy_go allowed n tlen o ws k g).1 p ∧ p.w ∈ ws ∧ p.w.length ≤ n)
  | [], k, g => by
    intro hsq
    refine ⟨hsq, fun a b c h => h, fun h => h, ?_⟩
    intro p hp
    simp [greedy_go] at hp
  | w :: ws, k, g => by
    intro hsq
    rw [greedy_go]
    by_cases hlen : w.length > n
    · rw [if_pos hlen]
      obtain ⟨S, P, C, M⟩ := greedy_go_spec allowed n tlen o hA ws (k+1) g hsq
      exact ⟨S, P, C, fun p hp =>
        ⟨(M p hp).1, List.mem_cons_of_mem _ (M p hp).2.1, (M p hp).2.2⟩⟩
    · rw [if_neg hlen]
      rcases tryWord_spec allowed n tlen w (o k) hA 1000 0 g with
        hnone | ⟨x, y, dx, dy, hnz, hcp, hguard, heq⟩
      · rw [hnone]
        obtain ⟨S, P, C, M⟩ := greedy_go_spec allowed n tlen o hA ws (k+1) g hsq
        exact ⟨S, P, C, fun p hp =>
          ⟨(M p hp).1, List.mem_cons_of_mem _ (M p hp).2.1, (M p hp).2.2⟩⟩
      · rw [heq]
        have hokAll : ∀ j (h : j < w.length),
            okAt g (n : Int) x y dx dy (0 + j) (w.get ⟨j, h⟩) := by
          intro j h
          have := (can_place_iff g x y dx dy w).mp hcp j h
          rw [hsq.1] at this
          rw [Nat.zero_add]
          exact this
        obtain ⟨S1, P1, R1, E1⟩ := placeFrom_spec x y dx dy hnz n w 0 g hsq hokAll
        have hS1 : Square (place_word g x y dx dy w) n := S1
        obtain ⟨S2, P2, C2, M2⟩ :=
          greedy_go_spec allowed n tlen o hA ws (k+1) (place_word g x y dx dy w) hS1
        refine ⟨S2, ?_, ?_, ?_⟩
        · intro a b c h
          exact P2 a b c (P1 a b c h)
        · intro hc
          apply C2
          have hE : countEmpty g = countEmpty (place_word g x y dx dy w) +
              countNewFrom g x y dx dy 0 w.length := E1
          by_cases htlen : tlen = 0
          · omega
          · have := hguard htlen
            have hcneq : countNew g x y dx dy w.length = countNewFrom g x y dx dy 0 w.length :=
              rfl
            omega
        · intro p hp
          rcases List.mem_cons.mp hp with rfl | hp2
          · refine ⟨?_, List.mem_cons_self _ _, Nat.le_of_not_lt hlen⟩
            apply placedOK_mono _ _ _ P2
            intro j hj
            have hok := hokAll j hj
            rw [Nat.zero_add] at hok
            exact ⟨hok.1, hok.2.2.1, by
              have := R1 j hj
              rw [Nat.zero_add] at this
              exact this⟩
          · obtain ⟨hpo, hmem, hl⟩ := M2 p hp2
            exact ⟨hpo, List.mem_cons_of_mem _ hmem, hl⟩

/-! ### The random cell filler -/

theorem length_fillRow (al : List Char) (fx : Nat → Nat) :
    ∀ (row : List Cell) (x0 : Nat), (fillRow al fx x0 row).length = row.length
  | [], _ => rfl
  | none :: rest, x0 => by
    rw [fillRow, List.length_cons, List.length_cons, length_fillRow al fx rest (x0+1)]
  | some ch :: rest, x0 => by
    rw [fillRow, List.length_cons, List.length_cons, length_fillRow al fx rest (x0+1)]

theorem getD_fillRow (al : List Char) (fx : Nat → Nat) :
    ∀ (row : List Cell) (x0 a : Nat), a < row.length →
      (fillRow al fx x0 row).getD a none =
        (match row.getD a none with
         | none => some (choiceD al (fx (x0 + a)) 'A')
         | some c => some c)
  | [], _, a, h => absurd h (by simp)
  | cell :: rest, x0, 0, h => by
    cases cell <;> simp [fillRow]
  | cell :: rest, x0, a+1, h => by
    have hrec := getD_fillRow al fx rest (x0+1) a (by simpa using h)
    rw [show (x0 + 1) + a = x0 + (a + 1) by omega] at hrec
    cases cell <;> simpa [fillRow] using hrec

theorem length_fillRows (al : List Char) (f : Nat → Nat → Nat) :
    ∀ (g : Grid) (y0 : Nat), (fillRows al f y0 g).length = g.length
  | [], _ => rfl
  | row :: rest, y0 => by
    rw [fillRows, List.length_cons, List.length_cons, length_fillRows al f rest (y0+1)]

theorem getD_fillRows (al : List Char) (f : Nat → Nat → Nat) :
    ∀ (g : Grid) (y0 b : Nat), b < g.length →
      (fillRows al f y0 g).getD b [] = fillRow al (f (y0 + b)) 0 (g.getD b [])
  | [], _, b, h => absurd h (by simp)
  | row :: rest, y0, 0, h => by simp [fillRows]
  | row :: rest, y0, b+1, h => by
    have hrec := getD_fillRows al f rest (y0+1) b (by simpa using h)
    rw [show (y0 + 1) + b = y0 + (b + 1) by omega] at hrec
    simpa [fillRows] using hrec

theorem getCellN_some_lt (g : Grid) (a b : Nat) (c : Char) (h : getCellN g a b = some c) :
    b < g.length ∧ a < (g.getD b []).length := by
  unfold getCellN at h
  constructor
  · by_contra hb
    rw [List.getD_eq_default _ _ (Nat.le_of_not_lt hb)] at h
    simp at h
  · by_contra ha
    rw [List.getD_eq_default _ _ (Nat.le_of_not_lt ha)] at h
    exact absurd h (by simp)

theorem fill_random_pres (g : Grid) (al : List Char) (f : Nat → Nat → Nat)
    (a b : Nat) (c : Char) (h : getCellN g a b = some c) :
    getCellN (fill_random g al f) a b = some c := by
  obtain ⟨hb, ha⟩ := getCellN_some_lt g a b c h
  unfold getCellN at h ⊢
  unfold fill_random
  rw [getD_fillRows al f g 0 b hb, getD_fillRow al _ _ 0 a ha, h]

theorem fill_random_none (g : Grid) (al : List Char) (f : Nat → Nat → Nat)
    (a b : Nat) (hb : b < g.length) (ha : a < (g.getD b []).length)
    (h : getCellN g a b = none) :
    getCellN (fill_random g al f) a b = some (choiceD al (f b a) 'A') := by
  unfold getCellN at h ⊢
  unfold fill_random
  rw [getD_fillRows al f g 0 b hb, getD_fillRow al _ _ 0 a ha, h]
  simp

/-! ### The empty-cell enumeration and the phrase filler -/

theorem rowEmpties_mem :
    ∀ (row : List Cell) (y x0 yy xx : Nat),
      (yy, xx) ∈ rowEmpties y x0 row ↔
        (yy = y ∧ ∃ a, a < row.length ∧ xx = x0 + a ∧ row.getD a none = none)
  | [], y, x0, yy, xx => by simp [rowEmpties]
  | none :: rest, y, x0, yy, xx => by
    rw [rowEmpties, List.mem_cons, rowEmpties_mem rest y (x0+1) yy xx]
    constructor
    · rintro (heq | ⟨h1, a, ha, hxa, hget⟩)
      · obtain ⟨h1, h2⟩ := Prod.mk.injEq .. ▸ heq
        refine ⟨by omega, 0, by simp, by omega, by simp⟩
      · exact ⟨h1, a+1, by simpa using ha, by omega, by simpa using hget⟩
    · rintro ⟨h1, a, ha, hxa, hget⟩
      cases a with
      | zero =>
        left
        have : xx = x0 := by omega
        rw [h1, this]
      | succ m =>
        right
        exact ⟨h1, m, by simpa using ha, by omega, by simpa using hget⟩
  | some ch :: rest, y, x0, yy, xx => by
    rw [rowEmpties, rowEmpties_mem rest y (x0+1) yy xx]
    constructor
    · rintro ⟨h1, a, ha, hxa, hget⟩
      exact ⟨h1, a+1, by simpa using ha, by omega, by simpa using hget⟩
    · rintro ⟨h1, a, ha, hxa, hget⟩
      cases a with
      | zero => simp at hget
      | succ m =>
        exact ⟨h1, m, by simpa using ha, by omega, by simpa using hget⟩

theorem emptiesFrom_mem :
    ∀ (g : Grid) (y0 yy xx : Nat),
      (yy, xx) ∈ emptiesFrom y0 g ↔
        ∃ b, b < g.length ∧ yy = y0 + b ∧ xx < (g.getD b []).length ∧
          (g.getD b []).getD xx none = none
  | [], y0, yy, xx => by simp [emptiesFrom]
  | row :: rest, y0, yy, xx => by
    rw [emptiesFrom, List.mem_append, rowEmpties_mem row y0 0 yy xx,
      emptiesFrom_mem rest (y0+1) yy xx]
    constructor
    · rintro (⟨h1, a, ha, hxa, hget⟩ | ⟨b, hb, hyb, hxb, hget⟩)
      · exact ⟨0, by simp, by omega, by simpa [show xx = a by omega] using ha,
          by simpa [show xx = a by omega] using hget⟩
      · exact ⟨b+1, by simpa using hb, by omega, by simpa using hxb, by simpa using hget⟩
    · rintro ⟨b, hb, hyb, hxb, hget⟩
      cases b with
      | zero =>
        left
        simp only [List.getD_cons_zero] at hxb hget
        exact ⟨by omega, xx, hxb, by omega, hget⟩
      | succ m =>
        right
        exact ⟨m, by simpa using hb, by omega, by simpa using hxb, by simpa using hget⟩

theorem empties_mem (g : Grid) (yy xx : Nat) :
    (yy, xx) ∈ empties g ↔
      yy < g.length ∧ xx < (g.getD yy []).length ∧ getCellN g xx yy = none := by
  rw [empties, emptiesFrom_mem g 0 yy xx]
  unfold getCellN
  constructor
  · rintro ⟨b, hb, hyb, hxb, hget⟩
    have : yy = b := by omega
    subst this
    exact ⟨hb, hxb, hget⟩
  · rintro ⟨hb, hxb, hget⟩
    exact ⟨yy, hb, by omega, hxb, hget⟩

theorem rowEmpties_pairwise :
    ∀ (row : List Cell) (y x0 : Nat), List.Pairwise rowMajorLt (rowEmpties y x0 row)
  | [], _, _ => List.Pairwise.nil
  | none :: rest, y, x0 => by
    rw [rowEmpties, List.pairwise_cons]
    constructor
    · rintro ⟨yy, xx⟩ hmem
      obtain ⟨h1, a, _, hxa, _⟩ := (rowEmpties_mem rest y (x0+1) yy xx).mp hmem
      exact Or.inr ⟨by omega, by omega⟩
    · exact rowEmpties_pairwise rest y (x0+1)
  | some ch :: rest, y, x0 => by
    rw [rowEmpties]
    exact rowEmpties_pairwise rest y (x0+1)

theorem emptiesFrom_pairwise :
    ∀ (g : Grid) (y0 : Nat), List.Pairwise rowMajorLt (emptiesFrom y0 g)
  | [], _ => List.Pairwise.nil
  | row :: rest, y0 => by
    rw [emptiesFrom, List.pairwise_append]
    refine ⟨rowEmpties_pairwise row y0 0, emptiesFrom_pairwise rest (y0+1), ?_⟩
    rintro ⟨yy, xx⟩ hmem ⟨yy2, xx2⟩ hmem2
    obtain ⟨h1, _⟩ := (rowEmpties_mem row y0 0 yy xx).mp hmem
    obtain ⟨b, _, h2, _⟩ := (emptiesFrom_mem rest (y0+1) yy2 xx2).mp hmem2
    exact Or.inl (by omega)

theorem empties_pairwise (g : Grid) : List.Pairwise rowMajorLt (empties g) :=
  emptiesFrom_pairwise g 0

theorem empties_nodup (g : Grid) : (empties g).Nodup := by
  apply (empties_pairwise g).imp
  rintro ⟨a1, a2⟩ ⟨b1, b2⟩ h heq
  obtain ⟨h1, h2⟩ := Prod.mk.injEq .. ▸ heq
  rcases h with h | ⟨h3, h4⟩ <;> omega

theorem length_fillEmpties (t lr : List Char) (f : Nat → Nat) :
    ∀ (es : List (Nat × Nat)) (i : Nat) (g : Grid),
      (fillEmpties t lr f i es g).length = g.length
  | [], _, _ => rfl
  | (y0, x0) :: rest, i, g => by
    rw [fillEmpties, length_fillEmpties t lr f rest (i+1) _, length_setCellN]

theorem rowlen_fillEmpties (t lr : List Char) (f : Nat → Nat) :
    ∀ (es : List (Nat × Nat)) (i : Nat) (g : Grid) (b : Nat),
      ((fillEmpties t lr f i es g).getD b []).length = ((g.getD b []) : List Cell).length
  | [], _, _, _ => rfl
  | (y0, x0) :: rest, i, g, b => by
    rw [fillEmpties, rowlen_fillEmpties t lr f rest (i+1) _ b, rowlen_setCellN]

theorem fillEmpties_untouched (t lr : List Char) (f : Nat → Nat) :
    ∀ (es : List (Nat × Nat)) (i : Nat) (g : Grid) (yy xx : Nat),
      (yy, xx) ∉ es → getCellN (fillEmpties t lr f i es g) xx yy = getCellN g xx yy
  | [], _, _, _, _ => fun _ => rfl
  | (y0, x0) :: rest, i, g, yy, xx => by
    intro hnot
    rw [fillEmpties, fillEmpties_untouched t lr f rest (i+1) _ yy xx
      (fun h => hnot (List.mem_cons_of_mem _ h))]
    apply getCellN_setCellN_ne
    rintro ⟨h1, h2⟩
    exact hnot (by rw [h1, h2]; exact List.mem_cons_self _ _)

theorem fillEmpties_value (t lr : List Char) (f : Nat → Nat) :
    ∀ (es : List (Nat × Nat)) (i : Nat) (g : Grid), es.Nodup →
      (∀ q ∈ es, q.1 < g.length ∧ q.2 < ((g.getD q.1 []) : List Cell).length) →
      ∀ (j : Nat) (h : j < es.length),
        getCellN (fillEmpties t lr f i es g) (es.get ⟨j, h⟩).2 (es.get ⟨j, h⟩).1 =
          some (tajVal t lr f (i + j))
  | [], _, _, _, _, j, h => absurd h (by simp)
  | (y0, x0) :: rest, i, g, hnd, hrange, j, h => by
    have hrange0 := hrange (y0, x0) (List.mem_cons_self _ _)
    have hrange1 : ∀ q ∈ rest,
        q.1 < (setCellN g x0 y0 (tajVal t lr f i)).length ∧
        q.2 < (((setCellN g x0 y0 (tajVal t lr f i)).getD q.1 []) : List Cell).length := by
      intro q hq
      rw [length_setCellN, rowlen_setCellN]
      exact hrange q (List.mem_cons_of_mem _ hq)
    cases j with
    | zero =>
      rw [fillEmpties]
      have hnotin : ((y0, x0) : Nat × Nat) ∉ rest := (List.nodup_cons.mp hnd).1
      have huntouched := fillEmpties_untouched t lr f rest (i+1)
        (setCellN g x0 y0 (tajVal t lr f i)) y0 x0 hnotin
      show getCellN (fillEmpties t lr f (i + 1) rest (setCellN g x0 y0 (tajVal t lr f i)))
          x0 y0 = some (tajVal t lr f (i + 0))
      rw [huntouched]
      exact getCellN_setCellN_self g x0 y0 _ hrange0.1 hrange0.2
    | succ m =>
      rw [fillEmpties]
      have := fillEmpties_value t lr f rest (i+1) _ (List.Nodup.of_cons hnd) hrange1 m
        (by simpa using h)
      rw [show (i+1) + m = i + (m+1) by omega] at this
      exact this

/-! ### The restricted random alphabet -/

theorem mem_insertChar : ∀ (l : List Char) (c d : Char), d ∈ insertChar c l ↔ d = c ∨ d ∈ l
  | [], c, d => by simp [insertChar]
  | e :: es, c, d => by
    rw [insertChar]
    by_cases h1 : e < c
    · rw [if_pos h1]
      rw [List.mem_cons, mem_insertChar es c d, List.mem_cons]
      tauto
    · rw [if_neg h1]
      by_cases h2 : e = c
      · subst h2
        rw [if_pos rfl, List.mem_cons]
        constructor
        · rintro (h | h) <;> tauto
        · rintro (h | h)
          · exact Or.inl h
          · exact h
      · rw [if_neg h2]
        simp only [List.mem_cons]

theorem mem_sortedSet : ∀ (l : List Char) (d : Char), d ∈ sortedSet l ↔ d ∈ l
  | [], d => by simp [sortedSet]
  | c :: cs, d => by
    rw [sortedSet, List.foldr_cons]
    have : List.foldr insertChar [] cs = sortedSet cs := rfl
    rw [this, mem_insertChar, mem_sortedSet cs d, List.mem_cons]

/-! ### Per-axis origin-range safety -/

theorem dir_components : ∀ d ∈ DIRECTIONS,
    (d.1 = -1 ∨ d.1 = 0 ∨ d.1 = 1) ∧ (d.2.1 = -1 ∨ d.2.1 = 0 ∨ d.2.1 = 1) := by decide

theorem axis_range_ok (d : Int) (hd : d = -1 ∨ d = 0 ∨ d = 1) (n len : Nat)
    (h1 : 1 ≤ len) (h2 : len ≤ n) :
    min_coord d len ≤ max_coord d n len ∧
    ∀ c : Int, min_coord d len ≤ c → c ≤ max_coord d n len →
      ∀ i : Nat, i < len → 0 ≤ c + d * (i : Int) ∧ c + d * (i : Int) < (n : Int) := by
  rcases hd with h | h | h <;> subst h
  · rw [min_coord, if_neg (by norm_num), max_coord, if_pos (by norm_num)]
    refine ⟨by omega, ?_⟩
    intro c hc1 hc2 i hi
    constructor <;> omega
  · rw [min_coord, if_pos (by norm_num), max_coord, if_pos (by norm_num)]
    refine ⟨by omega, ?_⟩
    intro c hc1 hc2 i hi
    constructor <;> omega
  · rw [min_coord, if_pos (by norm_num), max_coord, if_neg (by norm_num)]
    refine ⟨by omega, ?_⟩
    intro c hc1 hc2 i hi
    constructor <;> omega

theorem fill_with_tajenka_pres (g : Grid) (al t : List Char) (strip : List Char → List Char)
    (f : Nat → Nat) (a b : Nat) (c : Char) (h : getCellN g a b = some c) :
    getCellN (fill_with_tajenka g al t strip f) a b = some c := by
  unfold fill_with_tajenka
  have hnot : (b, a) ∉ empties g := by
    intro hmem
    rw [empties_mem] at hmem
    rw [hmem.2.2] at h
    exact Option.noConfusion h
  rw [fillEmpties_untouched _ _ _ (empties g) 0 g b a hnot]
  exact h

theorem fill_with_tajenka_value (g : Grid) (al t : List Char)
    (strip : List Char → List Char) (f : Nat → Nat) (j : Nat)
    (h : j < (empties g).length) :
    getCellN (fill_with_tajenka g al t strip f)
        ((empties g).get ⟨j, h⟩).2 ((empties g).get ⟨j, h⟩).1 =
      some (tajVal t (letters_random_of strip al) f j) := by
  unfold fill_with_tajenka
  have hrange : ∀ q ∈ empties g,
      q.1 < g.length ∧ q.2 < ((g.getD q.1 []) : List Cell).length := by
    rintro ⟨qy, qx⟩ hq
    rw [empties_mem] at hq
    exact ⟨hq.1, hq.2.1⟩
  have := fillEmpties_value t (letters_random_of strip al) f (empties g) 0 g
    (empties_nodup g) hrange j h
  simpa using this

theorem readWord_of_placedOK (g : Grid) (p : Placement) (h : placedOK g p) :
    readWord g p.x p.y p.dx p.dy p.w.length = p.w.map some := by
  unfold readWord
  apply List.ext_getElem
  · simp
  · intro i h1 h2
    have hi : i < p.w.length := by simpa using h1
    obtain ⟨_, _, h3⟩ := h i hi
    rw [List.getElem_map, List.getElem_map, List.getElem_range]
    exact h3

/-! ## Claim theorems -/

/-- Claim C1: for every grid of side N (= number of rows, as the source measures
both axes against `len(grid)`), every word, origin and direction, `can_place`
returns true if and only if each character position i has its cell
(x + dx*i, y + dy*i) inside [0, N) on both axes and that cell empty or already
equal to word[i]; equivalently it returns false exactly when some position is
out of bounds or holds a different character. -/
theorem c1_can_place_characterization (g : Grid) (x y dx dy : Int) (w : Word) :
    can_place g x y dx dy w = true ↔
      ∀ i (h : i < w.length),
        (0 ≤ x + dx * (i : Int) ∧ x + dx * (i : Int) < (g.length : Int) ∧
         0 ≤ y + dy * (i : Int) ∧ y + dy * (i : Int) < (g.length : Int)) ∧
        (getCell g (x + dx * (i : Int)) (y + dy * (i : Int)) = none ∨
         getCell g (x + dx * (i : Int)) (y + dy * (i : Int)) = some (w.get ⟨i, h⟩)) := by
  rw [can_place_iff]
  constructor
  · intro hall i h
    obtain ⟨h1, h2, h3, h4, h5⟩ := hall i h
    exact ⟨⟨h1, h2, h3, h4⟩, h5⟩
  · intro hall i h
    obtain ⟨⟨h1, h2, h3, h4⟩, h5⟩ := hall i h
    exact ⟨h1, h2, h3, h4, h5⟩

/-- Claim C4: `pick_allowed` returns exactly the catalog directions passing both
filters (diagonal filter: dx = 0 or dy = 0 unless diagonals allowed; backward
filter: forward label unless backwards allowed), and the result is always
non-empty, containing E = (1,0) and S = (0,1) for every flag combination. -/
theorem c4_pick_allowed_exact (dg bw : Bool) :
    pick_allowed dg bw =
      DIRECTIONS.filter (fun d =>
        (dg || d.1 == 0 || d.2.1 == 0) && (bw || forward.contains d.2.2)) ∧
    pick_allowed dg bw ≠ [] ∧
    ((1 : Int), (0 : Int), "E") ∈ pick_allowed dg bw ∧
    ((0 : Int), (1 : Int), "S") ∈ pick_allowed dg bw := by
  cases dg <;> cases bw <;> exact ⟨by decide, by decide, by decide, by decide⟩

/-- Claim C9: for every catalog direction, grid size n ≥ 1 and word length
1 ≤ len ≤ n, the origin ranges computed on lines 121-122 are non-degenerate
(min ≤ max on both axes), `randint` sampling over them is well defined (every
draw lands in [min, max]), and every origin from these ranges keeps all len
cells inside [0, n) on both axes, so the out-of-bounds branch of `can_place` is
unreachable for origins sampled this way. -/
theorem c9_origin_ranges_safe (d : Dir) (hd : d ∈ DIRECTIONS) (n len : Nat)
    (hlen1 : 1 ≤ len) (hlen2 : len ≤ n) :
    (min_coord d.1 len ≤ max_coord d.1 n len ∧
     min_coord d.2.1 len ≤ max_coord d.2.1 n len) ∧
    (∀ k, min_coord d.1 len ≤ randintD (min_coord d.1 len) (max_coord d.1 n len) k ∧
      randintD (min_coord d.1 len) (max_coord d.1 n len) k ≤ max_coord d.1 n len) ∧
    (∀ k, min_coord d.2.1 len ≤ randintD (min_coord d.2.1 len) (max_coord d.2.1 n len) k ∧
      randintD (min_coord d.2.1 len) (max_coord d.2.1 n len) k ≤ max_coord d.2.1 n len) ∧
    (∀ x y : Int, min_coord d.1 len ≤ x → x ≤ max_coord d.1 n len →
      min_coord d.2.1 len ≤ y → y ≤ max_coord d.2.1 n len →
      ∀ i : Nat, i < len →
        0 ≤ x + d.1 * (i : Int) ∧ x + d.1 * (i : Int) < (n : Int) ∧
        0 ≤ y + d.2.1 * (i : Int) ∧ y + d.2.1 * (i : Int) < (n : Int)) := by
  obtain ⟨hdx, hdy⟩ := dir_components d hd
  obtain ⟨hx1, hx2⟩ := axis_range_ok d.1 hdx n len hlen1 hlen2
  obtain ⟨hy1, hy2⟩ := axis_range_ok d.2.1 hdy n len hlen1 hlen2
  refine ⟨⟨hx1, hy1⟩, fun k => randintD_mem _ _ k hx1, fun k => randintD_mem _ _ k hy1, ?_⟩
  intro x y hxa hxb hya hyb i hi
  obtain ⟨ha, hb⟩ := hx2 x hxa hxb i hi
  obtain ⟨hc, hd2⟩ := hy2 y hya hyb i hi
  exact ⟨ha, hb, hc, hd2⟩

/-- Witness for C9 at the concrete direction E = (1,0), n = 2, len = 1. -/
theorem c9_origin_ranges_safe_witness :
    (((1 : Int), (0 : Int), "E") ∈ DIRECTIONS ∧ 1 ≤ 1 ∧ 1 ≤ 2) ∧
    min_coord (1 : Int) 1 ≤ max_coord (1 : Int) 2 1 :=
  ⟨⟨by decide, by decide, by decide⟩,
   (c9_origin_ranges_safe ((1 : Int), (0 : Int), "E") (by decide) 2 1 (by decide)
     (by decide)).1.1⟩

/-- Claim C2: throughout a run of the scheduler loop (started on any grid with
catalog directions) and through either cell filler, a non-empty cell keeps
exactly its character: every write either fills an empty cell or re-writes the
identical character, because a word is written only after `can_place` verified
every one of its cells. -/
theorem c2_filled_cells_preserved :
    (∀ (allowed : List Dir), (∀ d ∈ allowed, d ∈ DIRECTIONS) →
      ∀ (n tlen : Nat) (o : Nat → Nat → Trial) (ws : List Word) (k : Nat) (g : Grid),
        Square g n → ∀ (a b : Nat) (c : Char), getCellN g a b = some c →
          getCellN (greedy_go allowed n tlen o ws k g).1 a b = some c) ∧
    (∀ (g : Grid) (al t : List Char) (strip : List Char → List Char) (f : Nat → Nat)
      (a b : Nat) (c : Char), getCellN g a b = some c →
        getCellN (fill_with_tajenka g al t strip f) a b = some c) ∧
    (∀ (g : Grid) (al : List Char) (f : Nat → Nat → Nat) (a b : Nat) (c : Char),
      getCellN g a b = some c → getCellN (fill_random g al f) a b = some c) := by
  refine ⟨?_, ?_, ?_⟩
  · intro allowed hA n tlen o ws k g hsq a b c h
    exact (greedy_go_spec allowed n tlen o hA ws k g hsq).2.1 a b c h
  · intro g al t strip f a b c h
    exact fill_with_tajenka_pres g al t strip f a b c h
  · intro g al f a b c h
    exact fill_random_pres g al f a b c h

/-- Witness for C2: a filled 1-cell grid keeps its letter through a scheduler
run and through both fillers. -/
theorem c2_filled_cells_preserved_witness :
    getCellN [[some 'A']] 0 0 = some 'A' ∧
    getCellN (greedy_go (pick_allowed true true) 1 0 (fun _ _ => ⟨0, 0, 0⟩)
      [] 0 [[some 'A']]).1 0 0 = some 'A' ∧
    getCellN (fill_with_tajenka [[some 'A']] ['B'] [] id (fun _ => 0)) 0 0 = some 'A' ∧
    getCellN (fill_random [[some 'A']] ['B'] (fun _ _ => 0)) 0 0 = some 'A' :=
  ⟨by decide,
   c2_filled_cells_preserved.1 (pick_allowed true true) (pick_allowed_sub_catalog true true)
     1 0 (fun _ _ => ⟨0, 0, 0⟩) [] 0 [[some 'A']]
     ⟨rfl, fun row h => by rw [List.mem_singleton.mp h]; rfl⟩ 0 0 'A' (by decide),
   c2_filled_cells_preserved.2.1 [[some 'A']] ['B'] [] id (fun _ => 0) 0 0 'A' (by decide),
   c2_filled_cells_preserved.2.2 [[some 'A']] ['B'] (fun _ _ => 0) 0 0 'A' (by decide)⟩

/-- Claim C3, counterexample: the claim quantifies over every grid size and word
list, but with the empty word list, grid size 1 and reserved count k = 2 the
scheduler returns a grid with a single empty cell — fewer than k.  The claimed
bound fails whenever k exceeds the total number of grid cells. -/
theorem c3_counterexample :
    ¬ (2 ≤ countEmpty (greedy_place [] 1 true true "A-Z (bez diakritiky)" 2 id
        (fun _ _ => ⟨0, 0, 0⟩)).1) := by decide

/-- Claim C3, amended: if additionally the reserved count k = tlen does not
exceed the total cell count n*n, then after scheduling at least k cells remain
empty (the per-trial guard on lines 125-127 rejects every placement that would
drop the count below k). -/
theorem c3_reserved_cells_bound (words : List Word) (n : Nat) (dg bw : Bool)
    (key : String) (tlen : Nat) (shuffle : List Word → List Word)
    (o : Nat → Nat → Trial) (hk : 0 < tlen) (hn : tlen ≤ n * n) :
    tlen ≤ countEmpty (greedy_place words n dg bw key tlen shuffle o).1 := by
  have := (greedy_go_spec (pick_allowed dg bw) n tlen o (pick_allowed_sub_catalog dg bw)
    (shuffle (sortLenDesc words)) 0 (make_empty n) (Square_make_empty n)).2.2.1
  apply this
  rw [countEmpty_make_empty]
  exact hn

/-- Witness for the amended C3 at n = 1, k = 1, empty word list. -/
theorem c3_reserved_cells_bound_witness :
    (0 < 1 ∧ 1 ≤ 1 * 1) ∧
    1 ≤ countEmpty (greedy_place [] 1 true true "k" 1 id (fun _ _ => ⟨0, 0, 0⟩)).1 :=
  ⟨⟨by decide, by decide⟩,
   c3_reserved_cells_bound [] 1 true true "k" 1 id (fun _ _ => ⟨0, 0, 0⟩)
     (by decide) (by decide)⟩

/-- Claim C5: `fill_with_tajenka` enumerates the empty cells in row-major order
(the `empties` list is sorted by row, then column, and contains exactly the
empty in-range coordinates); the i-th empty cell receives phrase[i] while
i < len(phrase) and afterwards a `random.choice` from the stripped, uppercased,
A-Z-restricted, deduplicated-and-sorted alphabet; a phrase longer than the
number of empty cells is silently truncated (only indices below the number of
empty cells are ever written, an excess phrase character is never used). -/
theorem c5_fill_with_tajenka_rowmajor (g : Grid) (al t : List Char)
    (strip : List Char → List Char) (f : Nat → Nat) :
    List.Pairwise rowMajorLt (empties g) ∧
    (∀ yy xx : Nat, (yy, xx) ∈ empties g ↔
      yy < g.length ∧ xx < (g.getD yy []).length ∧ getCellN g xx yy = none) ∧
    (∀ j (h : j < (empties g).length),
      getCellN (fill_with_tajenka g al t strip f)
          ((empties g).get ⟨j, h⟩).2 ((empties g).get ⟨j, h⟩).1 =
        some (if j < t.length then t.getD j 'A'
          else choiceD (letters_random_of strip al) (f j) 'A')) ∧
    (letters_random_of strip al ≠ [] →
      ∀ j (h : j < (empties g).length), t.length ≤ j →
        ∃ c ∈ letters_random_of strip al,
          getCellN (fill_with_tajenka g al t strip f)
            ((empties g).get ⟨j, h⟩).2 ((empties g).get ⟨j, h⟩).1 = some c) := by
  refine ⟨empties_pairwise g, fun yy xx => empties_mem g yy xx, ?_, ?_⟩
  · intro j h
    exact fill_with_tajenka_value g al t strip f j h
  · intro hlr j h hj
    refine ⟨choiceD (letters_random_of strip al) (f j) 'A',
      choiceD_mem _ _ _ hlr, ?_⟩
    rw [fill_with_tajenka_value g al t strip f j h]
    rw [tajVal, if_neg (by omega)]

/-- Witness for C5 on the 1-cell empty grid with an empty phrase. -/
theorem c5_fill_with_tajenka_rowmajor_witness :
    (letters_random_of id ['B'] ≠ [] ∧ 0 < (empties [[(none : Cell)]]).length ∧
      ([] : List Char).length ≤ 0) ∧
    ∃ c ∈ letters_random_of id ['B'],
      getCellN (fill_with_tajenka [[(none : Cell)]] ['B'] [] id (fun _ => 0))
        ((empties [[(none : Cell)]]).get ⟨0, by decide⟩).2
        ((empties [[(none : Cell)]]).get ⟨0, by decide⟩).1 = some c :=
  ⟨⟨by decide, by decide, by decide⟩,
   (c5_fill_with_tajenka_rowmajor [[(none : Cell)]] ['B'] [] id (fun _ => 0)).2.2.2
     (by decide) 0 (by decide) (by decide)⟩

/-- Claim C10: both cell fillers leave every already non-empty cell exactly as it
was, assign a character to every empty cell (so afterwards no cell of the n by n
grid is empty; for the random draws to be possible Python needs the respective
random alphabet non-empty, which the configured alphabets guarantee), and
`fill_random` draws each assigned letter from the supplied alphabet. -/
theorem c10_fillers_total_frame :
    (∀ (g : Grid) (al : List Char) (f : Nat → Nat → Nat) (a b : Nat) (c : Char),
      getCellN g a b = some c → getCellN (fill_random g al f) a b = some c) ∧
    (∀ (g : Grid) (al t : List Char) (strip : List Char → List Char) (f : Nat → Nat)
      (a b : Nat) (c : Char), getCellN g a b = some c →
        getCellN (fill_with_tajenka g al t strip f) a b = some c) ∧
    (∀ (g : Grid) (n : Nat), Square g n → ∀ (al : List Char) (f : Nat → Nat → Nat),
      al ≠ [] → ∀ (a b : Nat), a < n → b < n →
        (getCellN (fill_random g al f) a b).isSome = true) ∧
    (∀ (g : Grid) (n : Nat), Square g n → ∀ (al t : List Char)
      (strip : List Char → List Char) (f : Nat → Nat),
      letters_random_of strip al ≠ [] → ∀ (a b : Nat), a < n → b < n →
        (getCellN (fill_with_tajenka g al t strip f) a b).isSome = true) ∧
    (∀ (g : Grid) (al : List Char) (f : Nat → Nat → Nat) (a b : Nat),
      b < g.length → a < (g.getD b []).length → al ≠ [] → getCellN g a b = none →
      ∃ c ∈ al, getCellN (fill_random g al f) a b = some c) := by
  refine ⟨fill_random_pres, fill_with_tajenka_pres, ?_, ?_, ?_⟩
  · intro g n hsq al f _ a b ha hb
    have hblen : b < g.length := by rw [hsq.1]; exact hb
    have halen : a < (g.getD b []).length := by
      rw [hsq.2 _ (getD_mem g b [] hblen)]; exact ha
    rcases hcell : getCellN g a b with _ | c
    · rw [fill_random_none g al f a b hblen halen hcell]; rfl
    · rw [fill_random_pres g al f a b c hcell]; rfl
  · intro g n hsq al t strip f _ a b ha hb
    have hblen : b < g.length := by rw [hsq.1]; exact hb
    have halen : a < (g.getD b []).length := by
      rw [hsq.2 _ (getD_mem g b [] hblen)]; exact ha
    rcases hcell : getCellN g a b with _ | c
    · have hmem : (b, a) ∈ empties g := (empties_mem g b a).mpr ⟨hblen, halen, hcell⟩
      obtain ⟨⟨j, hj⟩, hget⟩ := List.mem_iff_get.mp hmem
      have := fill_with_tajenka_value g al t strip f j hj
      rw [hget] at this
      rw [this]
      rfl
    · rw [fill_with_tajenka_pres g al t strip f a b c hcell]; rfl
  · intro g al f a b hblen halen hal hcell
    exact ⟨choiceD al (f b a) 'A', choiceD_mem _ _ _ hal,
      fill_random_none g al f a b hblen halen hcell⟩

/-- Claim C6: every placement accepted by the collision checker and written by
`place_word` during a `greedy_place` run reads back exactly, cell by cell along
its direction, from the final scheduler grid, and still does so after either
cell filler has completed the grid. -/
theorem c6_roundtrip_placements (words : List Word) (n : Nat) (dg bw : Bool) (tlen : Nat)
    (shuffle : List Word → List Word) (o : Nat → Nat → Trial)
    (al t : List Char) (strip : List Char → List Char) (f1 : Nat → Nat)
    (al2 : List Char) (f2 : Nat → Nat → Nat) :
    ∀ p ∈ (greedy_place_aux words n dg bw tlen shuffle o).2,
      readWord (greedy_place_aux words n dg bw tlen shuffle o).1
          p.x p.y p.dx p.dy p.w.length = p.w.map some ∧
      readWord (fill_with_tajenka (greedy_place_aux words n dg bw tlen shuffle o).1
          al t strip f1) p.x p.y p.dx p.dy p.w.length = p.w.map some ∧
      readWord (fill_random (greedy_place_aux words n dg bw tlen shuffle o).1 al2 f2)
          p.x p.y p.dx p.dy p.w.length = p.w.map some := by
  intro p hp
  have hM := (greedy_go_spec (pick_allowed dg bw) n tlen o (pick_allowed_sub_catalog dg bw)
    (shuffle (sortLenDesc words)) 0 (make_empty n) (Square_make_empty n)).2.2.2 p hp
  have hok : placedOK (greedy_place_aux words n dg bw tlen shuffle o).1 p := hM.1
  refine ⟨readWord_of_placedOK _ p hok,
    readWord_of_placedOK _ p (placedOK_mono _ _ p ?_ hok),
    readWord_of_placedOK _ p (placedOK_mono _ _ p ?_ hok)⟩
  · intro a b c h
    exact fill_with_tajenka_pres _ al t strip f1 a b c h
  · intro a b c h
    exact fill_random_pres _ al2 f2 a b c h

/-- Witness for C6: the word "A" is placed at (0,0) eastward on the 1-cell grid
and reads back from the filled grid. -/
theorem c6_roundtrip_placements_witness :
    (⟨0, 0, 1, 0, ['A']⟩ : Placement) ∈
      (greedy_place_aux [['A']] 1 true true 0 id (fun _ _ => ⟨0, 0, 0⟩)).2 ∧
    readWord (fill_random (greedy_place_aux [['A']] 1 true true 0 id
      (fun _ _ => ⟨0, 0, 0⟩)).1 ['B'] (fun _ _ => 0)) 0 0 1 0 1 = [some 'A'] :=
  ⟨by decide,
   (c6_roundtrip_placements [['A']] 1 true true 0 id (fun _ _ => ⟨0, 0, 0⟩)
     ['B'] [] id (fun _ => 0) ['B'] (fun _ _ => 0)
     ⟨0, 0, 1, 0, ['A']⟩ (by decide)).2.2⟩

/-- Claim C7: words longer than the grid side are skipped without any placement
attempt and never appear in the returned placed list; for a single word longer
than n (with any permutation-valued shuffle) the result is the untouched empty
grid and an empty placed list. -/
theorem c7_long_words_skipped (words : List Word) (n : Nat) (dg bw : Bool) (key : String)
    (tlen : Nat) (shuffle : List Word → List Word) (o : Nat → Nat → Trial) :
    (∀ w ∈ (greedy_place words n dg bw key tlen shuffle o).2, w.length ≤ n) ∧
    (∀ w : Word, n < w.length → (∀ l : List Word, (shuffle l).Perm l) →
      greedy_place [w] n dg bw key tlen shuffle o = (make_empty n, [])) := by
  constructor
  · intro w hw
    simp only [greedy_place] at hw
    obtain ⟨p, hp, rfl⟩ := List.mem_map.mp hw
    exact ((greedy_go_spec (pick_allowed dg bw) n tlen o (pick_allowed_sub_catalog dg bw)
      (shuffle (sortLenDesc words)) 0 (make_empty n) (Square_make_empty n)).2.2.2 p hp).2.2
  · intro w hlen hperm
    have hsort : sortLenDesc [w] = [w] := rfl
    have hshuf : shuffle [w] = [w] := List.perm_singleton.mp (hperm [w])
    simp only [greedy_place, greedy_place_aux, hsort, hshuf]
    rw [greedy_go, if_pos hlen]
    rfl

/-- Witness for C7: the word "AB" (length 2) on a grid of side 1. -/
theorem c7_long_words_skipped_witness :
    (1 < (['A', 'B'] : Word).length) ∧
    greedy_place [['A', 'B']] 1 true true "k" 0 id (fun _ _ => ⟨0, 0, 0⟩) =
      (make_empty 1, []) :=
  ⟨by decide,
   (c7_long_words_skipped [['A', 'B']] 1 true true "k" 0 id (fun _ _ => ⟨0, 0, 0⟩)).2
     ['A', 'B'] (by decide) (fun l => List.Perm.refl l)⟩

theorem tryWord_oracle_agree (allowed : List Dir) (n tlen : Nat) (w : Word) :
    ∀ (fuel j : Nat) (g : Grid) (ow ow2 : Nat → Trial),
      (∀ m, j ≤ m → m < j + fuel → ow m = ow2 m) →
      tryWord allowed n tlen w ow j fuel g = tryWord allowed n tlen w ow2 j fuel g
  | 0, _, _, _, _, _ => rfl
  | fuel+1, j, g, ow, ow2, h => by
    rw [tryWord, tryWord, h j (Nat.le_refl j) (by omega),
      tryWord_oracle_agree allowed n tlen w fuel (j+1) g ow ow2
        (fun m h1 h2 => h m (by omega) (by omega))]

/-- Claim C8: the per-word placement loop performs at most 1000 trials — its
outcome depends only on the first 1000 oracle draws — it terminates by
construction, and a word with no successful trial leaves the grid unchanged
and is omitted from the scheduler results without error. -/
theorem c8_trial_cap (allowed : List Dir) (n tlen : Nat) (w : Word)
    (hA : ∀ d ∈ allowed, d ∈ DIRECTIONS) (g : Grid) :
    (∀ ow ow2 : Nat → Trial, (∀ m, m < 1000 → ow m = ow2 m) →
      tryWord allowed n tlen w ow 0 1000 g = tryWord allowed n tlen w ow2 0 1000 g) ∧
    (∀ ow : Nat → Trial, (tryWord allowed n tlen w ow 0 1000 g).2 = none →
      (tryWord allowed n tlen w ow 0 1000 g).1 = g) ∧
    (∀ (o : Nat → Nat → Trial) (ws : List Word) (k : Nat), ¬ (w.length > n) →
      (tryWord allowed n tlen w (o k) 0 1000 g).2 = none →
      greedy_go allowed n tlen o (w :: ws) k g = greedy_go allowed n tlen o ws (k+1) g) := by
  refine ⟨?_, ?_, ?_⟩
  · intro ow ow2 h
    exact tryWord_oracle_agree allowed n tlen w 1000 0 g ow ow2 (fun m _ h2 => h m (by omega))
  · intro ow hnone
    rcases tryWord_spec allowed n tlen w ow hA 1000 0 g with h | ⟨x, y, dx, dy, _, _, _, heq⟩
    · rw [h]
    · rw [heq] at hnone
      exact absurd hnone (by simp)
  · intro o ws k hlen hnone
    rw [greedy_go, if_neg hlen]
    rcases tryWord_spec allowed n tlen w (o k) hA 1000 0 g with
      h | ⟨x, y, dx, dy, _, _, _, heq⟩
    · rw [h]
    · rw [heq] at hnone
      exact absurd hnone (by simp)

set_option maxRecDepth 1000000 in
/-- Witness for C8: the word "A" can never be placed on a 1-cell grid already
holding "B"; all 1000 trials fail and the grid comes back unchanged. -/
theorem c8_trial_cap_witness :
    ((tryWord (pick_allowed true true) 1 0 ['A'] (fun _ => ⟨0, 0, 0⟩) 0 1000
        [[some 'B']]).2 = none) ∧
    (tryWord (pick_allowed true true) 1 0 ['A'] (fun _ => ⟨0, 0, 0⟩) 0 1000
        [[some 'B']]).1 = [[some 'B']] :=
  ⟨by decide,
   (c8_trial_cap (pick_allowed true true) 1 0 ['A'] (pick_allowed_sub_catalog true true)
     [[some 'B']]).2.1 (fun _ => ⟨0, 0, 0⟩) (by decide)⟩

/-- Witness for C10 on the 1-cell empty grid. -/
theorem c10_fillers_total_frame_witness :
    (Square [[(none : Cell)]] 1 ∧ (['B'] : List Char) ≠ [] ∧ 0 < 1) ∧
    (getCellN (fill_random [[(none : Cell)]] ['B'] (fun _ _ => 0)) 0 0).isSome = true :=
  ⟨⟨⟨rfl, fun row h => by rw [List.mem_singleton.mp h]; rfl⟩, by decide, by decide⟩,
   c10_fillers_total_frame.2.2.1 [[(none : Cell)]] 1
     ⟨rfl, fun row h => by rw [List.mem_singleton.mp h]; rfl⟩ ['B'] (fun _ _ => 0)
     (by decide) 0 0 (by decide) (by decide)⟩

end WordSearch
